import Mathlib

/-!
Verification of the memory-consistency and lookup subsystem of a zkVM.

This file gives a shallow embedding, in Lean 4, of the parts of the
repository that the verified properties concern:

* the variable range checker chip (`circuits/primitives/src/var_range/mod.rs`),
* the sorted-assertion AIR (`circuits/primitives/src/assert_sorted/air.rs`),
* the memory audit bridge (`vm/src/memory/audit/bridge.rs`),
* the chip complex: bus allocation and proof-input generation order
  (`vm/src/arch/extensions.rs`),
* the continuation segment loop and the single-segment VM
  (`vm/src/system/vm/mod.rs`).

Rust `u32` counters are modelled as `Nat` reduced modulo `2 ^ 32` at each
wrapping operation; a Rust `panic!`/`assert!` or a propagated error is
modelled by returning `none`.
-/

/-- Modulus of the Rust `u32` type: `AtomicU32.fetch_add` wraps at this value. -/
def U32_MOD : Nat := 2 ^ 32

/-! ### Variable range checker (`var_range/mod.rs`) -/

/-- Embeds `VariableRangeCheckerBus` (`var_range/bus.rs`): a bus index together
with the configured maximum bit width `range_max_bits`. -/
structure VariableRangeCheckerBus where
  index : Nat
  range_max_bits : Nat
  deriving DecidableEq

/-- Embeds `VariableRangeCheckerAir`: it only stores the bus. -/
structure VariableRangeCheckerAir where
  bus : VariableRangeCheckerBus
  deriving DecidableEq

/-- Embeds `VariableRangeCheckerChip`: the AIR plus the `count` vector of
`AtomicU32` counters, modelled as a list of naturals each below `2 ^ 32`. -/
structure VariableRangeCheckerChip where
  air : VariableRangeCheckerAir
  count : List Nat
  deriving DecidableEq

/-- Embeds `VariableRangeCheckerChip::new`: allocates
`num_rows = 1 << (bus.range_max_bits + 1)` zero counters. -/
def VariableRangeCheckerChip.new (bus : VariableRangeCheckerBus) : VariableRangeCheckerChip :=
  let num_rows := 2 ^ (bus.range_max_bits + 1)
  { air := { bus := bus }, count := List.replicate num_rows 0 }

/-- Embeds `VariableRangeCheckerChip::add_count`: computes
`idx = (1 << max_bits) + value`, asserts `idx < count.len()` (the failing
assert, a Rust panic, is modelled as `none`), and performs the wrapping
`fetch_add(1)` on the `AtomicU32` at `idx`. -/
def VariableRangeCheckerChip.add_count (chip : VariableRangeCheckerChip)
    (value : Nat) (max_bits : Nat) : Option VariableRangeCheckerChip :=
  let idx := 2 ^ max_bits + value
  if h : idx < chip.count.length then
    some { chip with count := chip.count.set idx ((chip.count.get ⟨idx, h⟩ + 1) % U32_MOD) }
  else
    none

/-- A sequence of `add_count` calls, performed left to right; the whole
sequence fails (`none`) as soon as one call panics. Each list element is a
`(value, max_bits)` pair. -/
def VariableRangeCheckerChip.add_counts (chip : VariableRangeCheckerChip) :
    List (Nat × Nat) → Option VariableRangeCheckerChip
  | [] => some chip
  | (value, max_bits) :: rest =>
    (chip.add_count value max_bits).bind (fun c => c.add_counts rest)

/-- A freshly constructed range checker with `range_max_bits = 4`,
as in the spec's concrete scenario 3. -/
def c1Fresh : VariableRangeCheckerChip := VariableRangeCheckerChip.new ⟨0, 4⟩

/-- The state of `c1Fresh` after `2 ^ 32 - 1` calls of `add_count 15 4`:
the counter at index 31 is saturated at `2 ^ 32 - 1`. -/
def c1Saturated : VariableRangeCheckerChip :=
  { c1Fresh with count := c1Fresh.count.set 31 (U32_MOD - 1) }

/-! ### Sorted-assertion AIR (`assert_sorted/air.rs`) -/

/-- Strict lexicographic order on limb-decomposed tuples, first limb most
significant: the tuple order certified by the tuple-order gadget on the
sort keys `(addr_space, addr, timestamp)`. Tuples of unequal shape are
never related. -/
def tuple_less_than : List Nat → List Nat → Bool
  | x :: xs, y :: ys =>
    if x < y then true
    else if x = y then tuple_less_than xs ys
    else false
  | _, _ => false

/-- Non-strict companion of `tuple_less_than`. -/
def tuple_le (x y : List Nat) : Bool :=
  tuple_less_than x y || x == y

/-- One row of the `AssertSortedAir` trace, restricted to the columns its
`eval` reads: the `key` tuple and the `less_than_next_key` indicator column
(a field element constrained to 0/1 by the sub-AIR). The auxiliary columns
of the comparison gadget are existentially determined by the key columns and
are omitted. -/
structure AssertSortedRow where
  key : List Nat
  less_than_next_key : Nat
  deriving DecidableEq

/-- Modelled from the spec: the `IsLessThanTupleAir` constraint evaluated by
`eval_when_transition` (the gadget source is outside `src/`). Per the spec's
contract for the tuple-order gadget, it computes and constrains the boolean
output column to equal the limb-wise comparison `x < y` of the two tuples. -/
def is_less_than_tuple_constraint (x y : List Nat) (out : Nat) : Bool :=
  out == (if tuple_less_than x y then 1 else 0)

/-- Embeds `AssertSortedAir::eval` over a whole trace: for every transition
(pair of adjacent rows), `builder.when_transition().assert_one` forces the
local `less_than_next_key` to 1, and the tuple gadget run in transition mode
constrains that column to be the comparison of the local key with the next
row's key. Returns `true` exactly when every transition constraint holds. -/
def assert_sorted_constraints : List AssertSortedRow → Bool
  | local_row :: next_row :: rest =>
    (local_row.less_than_next_key == 1) &&
      is_less_than_tuple_constraint local_row.key next_row.key local_row.less_than_next_key &&
      assert_sorted_constraints (next_row :: rest)
  | _ => true

/-! ### Memory audit bridge (`memory/audit/bridge.rs`) -/

/-- Embeds `MemoryAddress { address_space, pointer }`. Field elements are
modelled as integers. -/
structure MemoryAddress where
  address_space : Int
  pointer : Int
  deriving DecidableEq

/-- The `final_cell` columns of the audit AIR: final data and the timestamp
(`clk`) of the last access. -/
structure AuditFinalCell where
  data : List Int
  clk : Int
  deriving DecidableEq

/-- Embeds the columns of `AuditCols<WORD_SIZE>` that `eval_interactions`
reads; `data` lists have length `WORD_SIZE`. -/
structure AuditCols where
  addr_space : Int
  pointer : Int
  initial_data : List Int
  final_cell : AuditFinalCell
  is_extra : Int
  deriving DecidableEq

/-- Direction of a memory-bus interaction. -/
inductive MemoryBusOpKind where
  | read : MemoryBusOpKind
  | write : MemoryBusOpKind
  deriving DecidableEq

/-- Modelled from the spec: one event on the memory bus ("a named channel
whose sent and received events must balance in a multiset sense"), as pushed
by `MEMORY_BUS.read(...)`/`MEMORY_BUS.write(...)` followed by
`.eval(builder, mult)` (the bus source is outside `src/`). The event carries
its multiplicity; an event of multiplicity 0 contributes nothing to the
multiset. -/
structure MemoryBusInteraction where
  kind : MemoryBusOpKind
  address : MemoryAddress
  data : List Int
  timestamp : Int
  mult : Int
  deriving DecidableEq

/-- Embeds `MemoryAuditAir::eval_interactions`: with `mult = 1 - is_extra`,
it pushes one write of the row's initial data at timestamp zero and one read
of the row's final data at the row's final access timestamp. -/
def MemoryAuditAir.eval_interactions (cols : AuditCols) : List MemoryBusInteraction :=
  let mult := 1 - cols.is_extra
  [ { kind := MemoryBusOpKind.write,
      address := { address_space := cols.addr_space, pointer := cols.pointer },
      data := cols.initial_data, timestamp := 0, mult := mult },
    { kind := MemoryBusOpKind.read,
      address := { address_space := cols.addr_space, pointer := cols.pointer },
      data := cols.final_cell.data, timestamp := cols.final_cell.clk, mult := mult } ]

/-- The multiset contribution of a row to the memory bus: the pushed events
whose multiplicity is nonzero. -/
def MemoryAuditAir.emitted_interactions (cols : AuditCols) : List MemoryBusInteraction :=
  (MemoryAuditAir.eval_interactions cols).filter (fun e => e.mult != 0)

/-! ### Chip complex: bus allocation and proof-input generation order
(`arch/extensions.rs`) -/

/-- Embeds the constant `EXECUTION_BUS: ExecutionBus = ExecutionBus(0)`. -/
def EXECUTION_BUS : Nat := 0

/-- Embeds the constant `MEMORY_BUS: MemoryBus = MemoryBus(1)`. -/
def MEMORY_BUS_IDX : Nat := 1

/-- Embeds the constant `PROGRAM_BUS: ProgramBus = ProgramBus(2)`. -/
def PROGRAM_BUS : Nat := 2

/-- Embeds the constant `RANGE_CHECKER_BUS: usize = 3`. -/
def RANGE_CHECKER_BUS : Nat := 3

/-- The bus indices held by a `SystemComplex` right after construction,
together with its `bus_idx_max` field (documented in the source as "Bus
indices are in range [0, bus_idx_max)"). The merkle and direct-compression
buses exist only when continuations are enabled. -/
structure SystemComplexBuses where
  execution_bus : Nat
  memory_bus : Nat
  program_bus : Nat
  range_checker_bus : Nat
  memory_merkle_bus : Option Nat
  direct_compression_bus : Option Nat
  bus_idx_max : Nat
  deriving DecidableEq

/-- Embeds the bus-index allocation performed by `SystemComplex::new`:
the range checker bus is built on index `RANGE_CHECKER_BUS`,
`bus_idx_max` starts at `RANGE_CHECKER_BUS`, and when continuations are
enabled it is incremented by 2 with `MemoryMerkleBus(bus_idx_max - 2)` and
`DirectCompressionBus(bus_idx_max - 1)` handed to the memory controller. -/
def SystemComplex.new_buses (continuation_enabled : Bool) : SystemComplexBuses :=
  let bus_idx_max := RANGE_CHECKER_BUS
  if continuation_enabled then
    let bus_idx_max := bus_idx_max + 2
    { execution_bus := EXECUTION_BUS, memory_bus := MEMORY_BUS_IDX,
      program_bus := PROGRAM_BUS, range_checker_bus := RANGE_CHECKER_BUS,
      memory_merkle_bus := some (bus_idx_max - 2),
      direct_compression_bus := some (bus_idx_max - 1),
      bus_idx_max := bus_idx_max }
  else
    { execution_bus := EXECUTION_BUS, memory_bus := MEMORY_BUS_IDX,
      program_bus := PROGRAM_BUS, range_checker_bus := RANGE_CHECKER_BUS,
      memory_merkle_bus := none, direct_compression_bus := none,
      bus_idx_max := bus_idx_max }

/-- Embeds `VmInventoryBuilder::new_bus_idx`: returns the current
`bus_idx_max` and increments it. The builder is created from the complex
with `bus_idx_max` equal to the complex's field. -/
def VmInventoryBuilder.new_bus_idx (bus_idx_max : Nat) : Nat × Nat :=
  (bus_idx_max, bus_idx_max + 1)

/-- All bus indices allocated by `SystemComplex::new`, in allocation order. -/
def SystemComplexBuses.allocated (b : SystemComplexBuses) : List Nat :=
  [b.execution_bus, b.memory_bus, b.program_bus, b.range_checker_bus] ++
    b.memory_merkle_bus.toList ++ b.direct_compression_bus.toList

/-- Embeds `ChipId` from `arch/extensions.rs`: an inventory chip is either an
instruction executor or a periphery chip, identified by its index in the
corresponding vector. -/
inductive ChipId where
  | executor : Nat → ChipId
  | periphery : Nat → ChipId
  deriving DecidableEq

/-- One call to `generate_air_proof_input` (chip finalization) inside
`VmChipComplex::generate_proof_input`, tagged by which chip was finalized.
The memory controller contributes one event per AIR it owns. -/
inductive GenEvent where
  | program : GenEvent
  | connector : GenEvent
  | inventory : ChipId → GenEvent
  | memory : Nat → GenEvent
  | range_checker : GenEvent
  deriving DecidableEq

/-- Embeds the order in which `VmChipComplex::generate_proof_input` calls
trace generation (`generate_air_proof_input`) on its chips: the program and
connector chips, then every inventory chip by popping along
`insertion_order.reverse()` (the executor/periphery vectors are popped, so
reverse insertion order), then `memory_controller.generate_air_proof_inputs()`
(its `num_memory_airs` AIRs), and the range checker chip last. -/
def VmChipComplex.generation_order (insertion_order : List ChipId)
    (num_memory_airs : Nat) : List GenEvent :=
  [GenEvent.program, GenEvent.connector] ++
    insertion_order.reverse.map GenEvent.inventory ++
    (List.range num_memory_airs).map GenEvent.memory ++
    [GenEvent.range_checker]

/-- Tests whether a generation event finalizes an inventory
(executor or periphery) chip. -/
def GenEvent.is_inventory : GenEvent → Bool
  | GenEvent.inventory _ => true
  | _ => false

/-- Tests whether a generation event finalizes one of the memory
controller's chips. -/
def GenEvent.is_memory : GenEvent → Bool
  | GenEvent.memory _ => true
  | _ => false

/-- Projects a generation event to the inventory chip it finalizes, if any. -/
def GenEvent.inventory_chip : GenEvent → Option ChipId
  | GenEvent.inventory c => some c
  | _ => none

/-! ### Continuation segment loop and single-segment VM
(`system/vm/mod.rs`) -/

/-- Modelled from the spec: a memory state in equipartition form, "a
fixed-size partition of the full address space into chunks" — a finite map
from `(address_space, chunk label)` to the chunk's field elements
(`Equipartition<F, CHUNK>` is outside `src/`). -/
def Equipartition : Type := List ((Nat × Nat) × List Nat)

instance : DecidableEq Equipartition := by
  unfold Equipartition
  infer_instance

/-- The fields of `ExecutionSegment` that the continuation loop in
`VirtualMachine::execute_segments` reads or writes: the claimed initial
memory passed at construction, the `final_memory` set during execution of a
continuations segment, and the `did_terminate` flag. The program, streams
and cycle tracker are threaded unchanged and are omitted. -/
structure ExecutionSegment where
  initial_memory : Option Equipartition
  final_memory : Option Equipartition
  did_terminate : Bool
  deriving DecidableEq

/-- Embeds `ExecutionSegment::new` restricted to the modelled fields: a new
segment starts from the claimed initial memory, with no final memory and not
terminated. -/
def ExecutionSegment.new (initial_memory : Option Equipartition) : ExecutionSegment :=
  { initial_memory := initial_memory, final_memory := none, did_terminate := false }

/-- Embeds the loop of `VirtualMachine::execute_segments`. The parameter
`exec` models `segment.execute_from_pc` (whose body is outside `src/`):
it maps the segment to its executed state, or `none` for an
`ExecutionError`. Per iteration: execute; if the segment terminated, push it
and stop; otherwise `mem::take` the `final_memory` (the `.expect` panic on a
missing final memory is `none`), push the segment (its `final_memory` now
taken), and construct the next segment from the taken final memory. `fuel`
bounds the number of iterations; an exhausted fuel models non-termination
as `none`. -/
def VirtualMachine.execute_segments_aux (exec : ExecutionSegment → Option ExecutionSegment) :
    Nat → ExecutionSegment → Option (List ExecutionSegment)
  | 0, _ => none
  | fuel + 1, seg =>
    match exec seg with
    | none => none
    | some s =>
      if s.did_terminate then some [s]
      else
        match s.final_memory with
        | none => none
        | some fm =>
          (VirtualMachine.execute_segments_aux exec fuel
              (ExecutionSegment.new (some fm))).map
            (fun rest => { s with final_memory := none } :: rest)

/-- Embeds `VirtualMachine::execute_segments`: the first segment is
constructed from the virtual machine's `initial_memory`. -/
def VirtualMachine.execute_segments (exec : ExecutionSegment → Option ExecutionSegment)
    (fuel : Nat) (initial_memory : Option Equipartition) : Option (List ExecutionSegment) :=
  VirtualMachine.execute_segments_aux exec fuel (ExecutionSegment.new initial_memory)

/-- A concrete executed-segment function used to exercise the continuation
loop: a segment with no claimed initial memory runs to the height ceiling
producing a final memory, and any later segment terminates. -/
def c3ExecFn (s : ExecutionSegment) : Option ExecutionSegment :=
  if s.initial_memory = none then
    some { s with final_memory := some [((0, 0), [7])] }
  else
    some { s with did_terminate := true }

/-- Modelled from the spec: the memory persistence type of a configuration,
either volatile ("a simple boundary table", no continuations) or persistent
(continuation mode) — `PersistenceType` lives in `system/vm/config.rs`,
outside `src/`. -/
inductive PersistenceType where
  | persistent : PersistenceType
  | volatile : PersistenceType
  deriving DecidableEq

/-- The memory configuration, restricted to the field the single-segment VM
constructor inspects. -/
structure MemoryConfig where
  persistence_type : PersistenceType
  deriving DecidableEq

/-- The VM configuration, restricted to the field the single-segment VM
constructor inspects. -/
structure VmConfig where
  memory_config : MemoryConfig
  deriving DecidableEq

/-- Embeds the `SingleSegmentVM` struct: it stores its configuration. -/
structure SingleSegmentVM where
  config : VmConfig
  deriving DecidableEq

/-- Embeds `SingleSegmentVM::new`: `assert_eq!(persistence_type, Volatile)`
panics (modelled as `none`) unless the configured persistence type is
volatile; otherwise the VM is constructed. -/
def SingleSegmentVM.new (config : VmConfig) : Option SingleSegmentVM :=
  if config.memory_config.persistence_type = PersistenceType.volatile then
    some { config := config }
  else
    none

/-! ## Helper lemmas on lists -/

/-- Every entry of a list of naturals is at most the list's sum. -/
theorem list_get_le_sum : ∀ (l : List Nat) (i : Nat) (h : i < l.length), l.get ⟨i, h⟩ ≤ l.sum
  | a :: l, 0, _ => by simp
  | a :: l, i + 1, h => by
    have ih := list_get_le_sum l i (Nat.lt_of_succ_lt_succ h)
    simp only [List.get_cons_succ, List.sum_cons]
    omega

/-- Updating one entry changes the sum by the difference of the new and the
old entry, stated without natural subtraction. -/
theorem list_sum_set : ∀ (l : List Nat) (i : Nat) (a : Nat) (h : i < l.length),
    (l.set i a).sum + l.get ⟨i, h⟩ = l.sum + a
  | _ :: _, 0, a, _ => by simp; omega
  | b :: l, i + 1, a, h => by
    have ih := list_sum_set l i a (Nat.lt_of_succ_lt_succ h)
    simp only [List.set_cons_succ, List.sum_cons, List.get_cons_succ]
    omega

/-- Writing back the entry a list already holds leaves the list unchanged. -/
theorem list_set_get_self : ∀ (l : List Nat) (i : Nat) (h : i < l.length),
    l.set i (l.get ⟨i, h⟩) = l
  | _ :: _, 0, _ => rfl
  | b :: l, i + 1, h => by
    simp only [List.get_cons_succ, List.set_cons_succ, List.cons.injEq, true_and]
    exact list_set_get_self l i (Nat.lt_of_succ_lt_succ h)

/-- Iterating `add_count` with a fixed `(value, max_bits)` pair `n` times
adds `n` to the targeted counter, modulo `2 ^ 32`. -/
theorem add_counts_replicate (v b : Nat) :
    ∀ (n : Nat) (chip : VariableRangeCheckerChip),
      2 ^ b + v < chip.count.length →
      ∀ k : Nat, chip.count.get? (2 ^ b + v) = some k → k < U32_MOD →
      chip.add_counts (List.replicate n (v, b)) =
        some { chip with count := chip.count.set (2 ^ b + v) ((k + n) % U32_MOD) }
  | 0, chip, h, k, hk, hlt => by
    simp only [List.replicate, VariableRangeCheckerChip.add_counts]
    have hget : chip.count.get ⟨2 ^ b + v, h⟩ = k := by
      rw [List.get?_eq_get h] at hk
      exact Option.some.inj hk
    rw [Nat.add_zero, Nat.mod_eq_of_lt hlt, ← hget, list_set_get_self]
  | n + 1, chip, h, k, hk, hlt => by
    rw [List.replicate_succ]
    simp only [VariableRangeCheckerChip.add_counts]
    unfold VariableRangeCheckerChip.add_count
    rw [dif_pos h, Option.some_bind]
    have hget : chip.count.get ⟨2 ^ b + v, h⟩ = k := by
      rw [List.get?_eq_get h] at hk
      exact Option.some.inj hk
    rw [hget]
    have hrec := add_counts_replicate v b n
      { chip with count := chip.count.set (2 ^ b + v) ((k + 1) % U32_MOD) }
      (by simpa using h) ((k + 1) % U32_MOD)
      (by
        simp only [List.get?_eq_getElem?]
        exact List.getElem?_set_eq_of_lt _ h)
      (Nat.mod_lt _ (by norm_num [U32_MOD]))
    rw [hrec]
    simp only [List.set_set, Option.some.injEq, VariableRangeCheckerChip.mk.injEq, true_and]
    rw [Nat.mod_add_mod]
    congr 2
    omega

/-! ## Theorems: bounded-value lookup service -/

/-- C9 (confirmed): an `add_count` call with value `v` and bit width `b`
that returns (does not panic) modifies only the `RangeCount` entry at index
`2 ^ b + v` and leaves every other entry unchanged; since `2 ^ b ≥ 1`, the
reserved "no check" entry at index 0 is never modified. -/
theorem add_count_frame (chip chip' : VariableRangeCheckerChip) (value max_bits : Nat)
    (h : chip.add_count value max_bits = some chip') :
    (∀ j, j ≠ 2 ^ max_bits + value → chip'.count.get? j = chip.count.get? j) ∧
      chip'.count.get? 0 = chip.count.get? 0 := by
  simp only [VariableRangeCheckerChip.add_count] at h
  split at h
  · injection h with h'
    subst h'
    have hmain : ∀ j, j ≠ 2 ^ max_bits + value →
        (chip.count.set (2 ^ max_bits + value)
            ((chip.count.get ⟨2 ^ max_bits + value, by assumption⟩ + 1) % U32_MOD)).get? j =
          chip.count.get? j := by
      intro j hj
      simp only [List.get?_eq_getElem?]
      exact List.getElem?_set_ne (Ne.symm hj)
    refine ⟨hmain, hmain 0 ?_⟩
    have := Nat.two_pow_pos max_bits
    omega
  · exact absurd h (by simp)

/-- Witness for the C9 frame theorem at a concrete call: one `add_count` on
a fresh one-bit service leaves the index-0 entry untouched. -/
theorem add_count_frame_witness :
    (VariableRangeCheckerChip.new ⟨0, 0⟩).add_count 0 0 =
        some { air := { bus := ⟨0, 0⟩ }, count := [0, 1] } ∧
      ({ air := { bus := ⟨0, 0⟩ }, count := [0, 1] } : VariableRangeCheckerChip).count.get? 0 =
        (VariableRangeCheckerChip.new ⟨0, 0⟩).count.get? 0 :=
  ⟨by decide, (add_count_frame _ _ 0 0 (by decide)).2⟩

/-- C1 (corrected) counterexample: the counters are `u32`s updated by a
wrapping `fetch_add`, so a single `add_count(15, 4)` call from the reachable
state in which entry 31 holds `2 ^ 32 - 1` (reached by `2 ^ 32 - 1` prior
calls on a fresh service) sets entry 31 to 0, not to `(2 ^ 32 - 1) + 1`:
the entry is not always incremented by exactly one. -/
theorem c1_counterexample :
    c1Fresh.add_counts (List.replicate (U32_MOD - 1) (15, 4)) = some c1Saturated ∧
      c1Saturated.count.get? 31 = some (U32_MOD - 1) ∧
      (c1Saturated.add_count 15 4).map (fun c => c.count.get? 31) = some (some 0) ∧
      some (some 0) ≠ some (some ((U32_MOD - 1) + 1)) := by
  refine ⟨?_, by decide, by decide, by decide⟩
  have h := add_counts_replicate 15 4 (U32_MOD - 1) c1Fresh (by decide) 0 (by decide)
    (by norm_num [U32_MOD])
  rw [h]
  norm_num [c1Saturated, U32_MOD]

/-- C1 (amended): an `add_count(value, max_bits)` call that returns
increments the `RangeCount` entry at index `2 ^ max_bits + value` modulo
`2 ^ 32` — by exactly one whenever the entry was below `2 ^ 32 - 1` — and in
particular two `add_count(15, 4)` calls on a freshly constructed service
with `range_max_bits = 4` leave the entry at index `16 + 15 = 31` equal
to 2. -/
theorem add_count_increments_mod_u32 :
    (∀ (chip chip' : VariableRangeCheckerChip) (value max_bits k : Nat),
        chip.add_count value max_bits = some chip' →
        chip.count.get? (2 ^ max_bits + value) = some k →
        k + 1 < U32_MOD →
        chip'.count.get? (2 ^ max_bits + value) = some (k + 1)) ∧
      ((VariableRangeCheckerChip.new ⟨0, 4⟩).add_counts [(15, 4), (15, 4)]).map
          (fun c => c.count.get? 31) = some (some 2) := by
  constructor
  · intro chip chip' value max_bits k h hk hlt
    simp only [VariableRangeCheckerChip.add_count] at h
    split at h
    · injection h with h'
      subst h'
      rename_i hidx
      have hget : chip.count.get ⟨2 ^ max_bits + value, hidx⟩ = k := by
        rw [List.get?_eq_get hidx] at hk
        exact Option.some.inj hk
      simp only [List.get?_eq_getElem?, hget]
      rw [List.getElem?_set_eq_of_lt _ hidx, Nat.mod_eq_of_lt hlt]
    · exact absurd h (by simp)
  · decide

/-- Witness for the C1 amended theorem at a concrete call: on a fresh
one-bit service, one `add_count(0, 0)` call moves entry 1 from 0 to 1. -/
theorem add_count_increments_mod_u32_witness :
    (VariableRangeCheckerChip.new ⟨0, 0⟩).add_count 0 0 =
        some { air := { bus := ⟨0, 0⟩ }, count := [0, 1] } ∧
      ({ air := { bus := ⟨0, 0⟩ }, count := [0, 1] } : VariableRangeCheckerChip).count.get?
          (2 ^ 0 + 0) = some (0 + 1) :=
  ⟨by decide,
    add_count_increments_mod_u32.1 (VariableRangeCheckerChip.new ⟨0, 0⟩)
      { air := { bus := ⟨0, 0⟩ }, count := [0, 1] } 0 0 0
      (by decide) (by decide) (by decide)⟩

/-- C6 (corrected) counterexample: constructing a service with
`range_max_bits = 2` succeeds without any validation (the chip is built,
with `2 ^ 3 = 8` counters), and the out-of-range call `add_count(0, 3)`
(bits `3 > 2`) is only caught at runtime, by the `assert!` inside
`add_count` — a panic during the runtime call, not a construction-time
error. -/
theorem c6_counterexample :
    VariableRangeCheckerChip.new ⟨0, 2⟩ =
        { air := { bus := ⟨0, 2⟩ }, count := List.replicate 8 0 } ∧
      (VariableRangeCheckerChip.new ⟨0, 2⟩).add_count 0 3 = none := by
  exact ⟨by decide, by decide⟩

/-- C6 (amended): a `request_check` call whose `bits` argument exceeds the
configured maximum is a runtime failure, not a construction-time one:
construction performs no check, and the call panics inside `add_count`
because its index `2 ^ bits + value` reaches past the `2 ^ (max + 1)`
allocated counters. -/
theorem add_count_exceeding_max_bits_panics (bus : VariableRangeCheckerBus)
    (value max_bits : Nat) (h : bus.range_max_bits < max_bits) :
    (VariableRangeCheckerChip.new bus).add_count value max_bits = none := by
  simp only [VariableRangeCheckerChip.new, VariableRangeCheckerChip.add_count]
  rw [dif_neg]
  simp only [List.length_replicate, not_lt]
  have hpow : 2 ^ (bus.range_max_bits + 1) ≤ 2 ^ max_bits :=
    Nat.pow_le_pow_right (by norm_num) h
  omega

/-- Witness for the C6 amended theorem at a concrete call: bits `3` on a
service configured with maximum `2` panics at runtime. -/
theorem add_count_exceeding_max_bits_panics_witness :
    (2 : Nat) < 3 ∧ (VariableRangeCheckerChip.new ⟨0, 2⟩).add_count 1 3 = none :=
  ⟨by decide, add_count_exceeding_max_bits_panics ⟨0, 2⟩ 1 3 (by decide)⟩

/-- Applying a list of in-range `add_count` calls whose total number keeps
every counter strictly below the `u32` wrap point adds the number of calls
to the sum of all counters. -/
theorem add_counts_sum_aux :
    ∀ (calls : List (Nat × Nat)) (chip : VariableRangeCheckerChip),
      (∀ p ∈ calls, 2 ^ p.2 + p.1 < chip.count.length) →
      chip.count.sum + calls.length < U32_MOD →
      (chip.add_counts calls).map (fun c => c.count.sum) =
        some (chip.count.sum + calls.length)
  | [], chip, _, _ => by simp [VariableRangeCheckerChip.add_counts]
  | (v, b) :: rest, chip, hvalid, hbound => by
    have hidx : 2 ^ b + v < chip.count.length := hvalid (v, b) (by simp)
    simp only [VariableRangeCheckerChip.add_counts, VariableRangeCheckerChip.add_count]
    rw [dif_pos hidx, Option.some_bind]
    have hle := list_get_le_sum chip.count (2 ^ b + v) hidx
    have hnowrap : (chip.count.get ⟨2 ^ b + v, hidx⟩ + 1) % U32_MOD =
        chip.count.get ⟨2 ^ b + v, hidx⟩ + 1 := by
      apply Nat.mod_eq_of_lt
      simp only [List.length_cons] at hbound
      omega
    have hsum := list_sum_set chip.count (2 ^ b + v)
      (chip.count.get ⟨2 ^ b + v, hidx⟩ + 1) hidx
    have hrec := add_counts_sum_aux rest
      { chip with count :=
          chip.count.set (2 ^ b + v) ((chip.count.get ⟨2 ^ b + v, hidx⟩ + 1) % U32_MOD) }
      (by
        intro p hp
        simpa using hvalid p (by simp [hp]))
      (by
        simp only [hnowrap, List.length_cons] at hbound ⊢
        omega)
    rw [hrec]
    simp only [hnowrap, List.length_cons, Option.some.injEq]
    omega

/-- C7 (corrected) counterexample: a sequence of `2 ^ 32` valid
`request_check(0, 0)` calls on a fresh service with `range_max_bits = 0`
wraps the single targeted `u32` counter back to 0, so the sum of all
`RangeCount` entries is 0, not the number of calls `2 ^ 32`. -/
theorem c7_counterexample :
    ((VariableRangeCheckerChip.new ⟨0, 0⟩).add_counts
          (List.replicate U32_MOD (0, 0))).map (fun c => c.count.sum) = some 0 ∧
      (List.replicate U32_MOD ((0 : Nat), (0 : Nat))).length = U32_MOD ∧
      (0 : Nat) < 2 ^ 0 ∧ (0 : Nat) ≠ U32_MOD := by
  refine ⟨?_, by simp, by decide, by norm_num [U32_MOD]⟩
  have h := add_counts_replicate 0 0 U32_MOD (VariableRangeCheckerChip.new ⟨0, 0⟩)
    (by decide) 0 (by decide) (by norm_num [U32_MOD])
  rw [h]
  norm_num [VariableRangeCheckerChip.new]

/-- C7 (amended): for every sequence of valid `request_check` calls
(`value < 2 ^ bits`, `bits ≤ range_max_bits`) of total length below `2 ^ 32`
on a fresh service, the sum of all `RangeCount` entries equals the number of
calls made (beyond `2 ^ 32` calls the `u32` counters wrap); and the index
map `(bits, value) ↦ 2 ^ bits + value` is injective on valid pairs, so
distinct valid `(bits, value)` pairs always increment distinct entries. -/
theorem add_counts_sum_and_injective :
    (∀ (bus : VariableRangeCheckerBus) (calls : List (Nat × Nat)),
        (∀ p ∈ calls, p.1 < 2 ^ p.2 ∧ p.2 ≤ bus.range_max_bits) →
        calls.length < U32_MOD →
        ((VariableRangeCheckerChip.new bus).add_counts calls).map
            (fun c => c.count.sum) = some calls.length) ∧
      (∀ b1 v1 b2 v2 : Nat, v1 < 2 ^ b1 → v2 < 2 ^ b2 →
        2 ^ b1 + v1 = 2 ^ b2 + v2 → b1 = b2 ∧ v1 = v2) := by
  constructor
  · intro bus calls hvalid hlen
    have hsum0 : (VariableRangeCheckerChip.new bus).count.sum = 0 := by
      simp [VariableRangeCheckerChip.new, List.sum_replicate]
    have h := add_counts_sum_aux calls (VariableRangeCheckerChip.new bus)
      (by
        intro p hp
        obtain ⟨h1, h2⟩ := hvalid p hp
        simp only [VariableRangeCheckerChip.new, List.length_replicate]
        have hstep : 2 ^ p.2 + p.1 < 2 ^ (p.2 + 1) := by
          rw [Nat.pow_succ]
          omega
        have hmono : 2 ^ (p.2 + 1) ≤ 2 ^ (bus.range_max_bits + 1) :=
          Nat.pow_le_pow_right (by norm_num) (by omega)
        omega)
      (by rw [hsum0]; omega)
    rw [h, hsum0, Nat.zero_add]
  · intro b1 v1 b2 v2 h1 h2 heq
    have hb : b1 = b2 := by
      rcases Nat.lt_trichotomy b1 b2 with hlt | hb | hlt
      · exfalso
        have hmono : 2 ^ (b1 + 1) ≤ 2 ^ b2 := Nat.pow_le_pow_right (by norm_num) hlt
        have hstep : 2 ^ (b1 + 1) = 2 ^ b1 * 2 := Nat.pow_succ 2 b1
        omega
      · exact hb
      · exfalso
        have hmono : 2 ^ (b2 + 1) ≤ 2 ^ b1 := Nat.pow_le_pow_right (by norm_num) hlt
        have hstep : 2 ^ (b2 + 1) = 2 ^ b2 * 2 := Nat.pow_succ 2 b2
        omega
    subst hb
    omega

/-- Witness for the C7 amended theorem: two valid calls on a fresh service
with maximum bit width 1 give counters summing to 2, and the injectivity
component at the concrete valid pairs `(0, 0)` and `(1, 1)`. -/
theorem add_counts_sum_and_injective_witness :
    (∀ p ∈ [((0 : Nat), (0 : Nat)), (1, 1)],
        p.1 < 2 ^ p.2 ∧ p.2 ≤ (VariableRangeCheckerBus.mk 0 1).range_max_bits) ∧
      ((VariableRangeCheckerChip.new ⟨0, 1⟩).add_counts [(0, 0), (1, 1)]).map
          (fun c => c.count.sum) = some 2 :=
  ⟨by decide,
    add_counts_sum_and_injective.1 ⟨0, 1⟩ [(0, 0), (1, 1)] (by decide)
      (by norm_num [U32_MOD])⟩

/-! ## Theorems: sorted-assertion AIR -/

/-- C2 (confirmed): every trace accepted by the sorted-assertion AIR run in
transition mode has, at every pair of adjacent rows, the local row's key
tuple strictly less than the next row's key tuple under the limb-decomposed
tuple order — and hence, a fortiori, `key[i] ≤ key[i+1]` for all adjacent
entries. -/
theorem assert_sorted_strictly_increasing (trace : List AssertSortedRow)
    (hacc : assert_sorted_constraints trace = true) (i : Nat) (h : i + 1 < trace.length) :
    tuple_less_than (trace.get ⟨i, Nat.lt_of_succ_lt h⟩).key
        (trace.get ⟨i + 1, h⟩).key = true ∧
      tuple_le (trace.get ⟨i, Nat.lt_of_succ_lt h⟩).key
        (trace.get ⟨i + 1, h⟩).key = true := by
  induction trace generalizing i with
  | nil => simp at h
  | cons r1 rest ih =>
    cases rest with
    | nil =>
      simp only [List.length_cons, List.length_nil] at h
      omega
    | cons r2 rest2 =>
      simp only [assert_sorted_constraints, Bool.and_eq_true, beq_iff_eq] at hacc
      obtain ⟨⟨h1, h2⟩, h3⟩ := hacc
      cases i with
      | zero =>
        have hlt : tuple_less_than r1.key r2.key = true := by
          rw [is_less_than_tuple_constraint, h1] at h2
          cases hb : tuple_less_than r1.key r2.key with
          | true => rfl
          | false => rw [hb] at h2; simp at h2
        exact ⟨hlt, by simp [tuple_le, hlt]⟩
      | succ i =>
        have hlen : i + 1 < (r2 :: rest2).length := by
          simpa using Nat.lt_of_succ_lt_succ h
        have := ih h3 i hlen
        simpa [List.get_cons_succ] using this

/-- Witness for the C2 theorem at a concrete accepted two-row trace with
keys `[0, 0]` and `[0, 1]`. -/
theorem assert_sorted_strictly_increasing_witness :
    assert_sorted_constraints [⟨[0, 0], 1⟩, ⟨[0, 1], 0⟩] = true ∧
      (tuple_less_than [0, 0] [0, 1] = true ∧ tuple_le [0, 0] [0, 1] = true) :=
  ⟨by decide,
    assert_sorted_strictly_increasing [⟨[0, 0], 1⟩, ⟨[0, 1], 0⟩] (by decide) 0 (by decide)⟩

/-! ## Theorems: memory audit AIR interactions -/

/-- C5 (confirmed): every row of the memory audit AIR emits on the memory
bus exactly one write of the row's initial data at timestamp zero and
exactly one read of the row's final data at the row's final access
timestamp, each with multiplicity `1 - is_extra`; in particular a padding
row (`is_extra = 1`) contributes no event to the bus multiset. -/
theorem eval_interactions_write_then_read (cols : AuditCols) :
    MemoryAuditAir.eval_interactions cols =
        [ { kind := MemoryBusOpKind.write,
            address := { address_space := cols.addr_space, pointer := cols.pointer },
            data := cols.initial_data, timestamp := 0, mult := 1 - cols.is_extra },
          { kind := MemoryBusOpKind.read,
            address := { address_space := cols.addr_space, pointer := cols.pointer },
            data := cols.final_cell.data, timestamp := cols.final_cell.clk,
            mult := 1 - cols.is_extra } ] ∧
      (cols.is_extra = 1 → MemoryAuditAir.emitted_interactions cols = []) := by
  refine ⟨rfl, fun h1 => ?_⟩
  simp [MemoryAuditAir.emitted_interactions, MemoryAuditAir.eval_interactions, h1,
    List.filter]

/-- Witness for the C5 theorem at a concrete padding row. -/
theorem eval_interactions_padding_witness :
    MemoryAuditAir.emitted_interactions
        { addr_space := 0, pointer := 0, initial_data := [0],
          final_cell := { data := [0], clk := 0 }, is_extra := 1 } = [] :=
  (eval_interactions_write_then_read _).2 rfl

/-! ## Theorems: bus allocation -/

/-- C8 (code bug): in a continuation-enabled machine the bus indices are
not pairwise distinct. `SystemComplex::new` initializes `bus_idx_max` to
`RANGE_CHECKER_BUS = 3` (instead of 4) while the range checker is built on
bus 3, so `MemoryMerkleBus(bus_idx_max - 2)` also receives index 3 — a
collision with the range checker bus — and on a machine without
continuations the first `new_bus_idx` call returns the already-used
index 3. -/
theorem system_complex_bus_collision :
    (SystemComplex.new_buses true).memory_merkle_bus = some 3 ∧
      (SystemComplex.new_buses true).range_checker_bus = 3 ∧
      ¬ (SystemComplex.new_buses true).allocated.Nodup ∧
      (VmInventoryBuilder.new_bus_idx (SystemComplex.new_buses false).bus_idx_max).1 =
        RANGE_CHECKER_BUS := by
  decide

/-! ## Theorems: proof-input generation order -/

/-- Positions satisfying a predicate that fails on all of `l2` lie in the
`l1` part of `l1 ++ l2`. -/
theorem get_append_bound_of_forall_not {α : Type} (l1 l2 : List α) (p : α → Bool)
    (hfail : ∀ x ∈ l2, p x = false) (i : Nat) (hi : i < (l1 ++ l2).length)
    (hp : p ((l1 ++ l2).get ⟨i, hi⟩) = true) : i < l1.length := by
  by_contra hc
  push_neg at hc
  have hlen : i - l1.length < l2.length := by
    simp only [List.length_append] at hi
    omega
  have hget : (l1 ++ l2).get ⟨i, hi⟩ = l2.get ⟨i - l1.length, hlen⟩ := by
    simp only [List.get_eq_getElem]
    exact List.getElem_append_right hc
  rw [hget] at hp
  rw [hfail _ (List.get_mem l2 _ _)] at hp
  cases hp

/-- Positions satisfying a predicate that fails on all of `l1` lie in the
`l2` part of `l1 ++ l2`. -/
theorem get_append_lower_of_forall_not {α : Type} (l1 l2 : List α) (p : α → Bool)
    (hfail : ∀ x ∈ l1, p x = false) (j : Nat) (hj : j < (l1 ++ l2).length)
    (hp : p ((l1 ++ l2).get ⟨j, hj⟩) = true) : l1.length ≤ j := by
  by_contra hc
  push_neg at hc
  have hget : (l1 ++ l2).get ⟨j, hj⟩ = l1.get ⟨j, hc⟩ := by
    simp only [List.get_eq_getElem]
    exact List.getElem_append_left hc
  rw [hget] at hp
  rw [hfail _ (List.get_mem l1 _ _)] at hp
  cases hp

/-- Projecting the inventory events of a mapped inventory list recovers the
list. -/
theorem filterMap_inventory_chip_map_inventory (l : List ChipId) :
    (l.map GenEvent.inventory).filterMap GenEvent.inventory_chip = l := by
  induction l with
  | nil => rfl
  | cons a l ih => simp [List.filterMap_cons, GenEvent.inventory_chip, ih]

/-- Memory events carry no inventory chip. -/
theorem filterMap_inventory_chip_map_memory (l : List Nat) :
    (l.map GenEvent.memory).filterMap GenEvent.inventory_chip = [] := by
  induction l with
  | nil => rfl
  | cons a l ih => simp [List.filterMap_cons, GenEvent.inventory_chip, ih]

/-- C4 (confirmed): during `generate_proof_input` for one segment, the
inventory (instruction-executor and periphery) chips are exactly the ones
finalized in reverse insertion order, every inventory chip is finalized
strictly before every memory controller chip, and the range checker chip is
finalized last of all chips (it occurs exactly at the final position). -/
theorem generation_order_spec (insertion_order : List ChipId) (num_memory_airs : Nat) :
    ((VmChipComplex.generation_order insertion_order num_memory_airs).filterMap
        GenEvent.inventory_chip = insertion_order.reverse) ∧
      (∀ i j (hi : i < (VmChipComplex.generation_order insertion_order num_memory_airs).length)
          (hj : j < (VmChipComplex.generation_order insertion_order num_memory_airs).length),
        ((VmChipComplex.generation_order insertion_order num_memory_airs).get
            ⟨i, hi⟩).is_inventory = true →
        ((VmChipComplex.generation_order insertion_order num_memory_airs).get
            ⟨j, hj⟩).is_memory = true → i < j) ∧
      ((VmChipComplex.generation_order insertion_order num_memory_airs).getLast? =
        some GenEvent.range_checker) ∧
      (∀ j (hj : j < (VmChipComplex.generation_order insertion_order num_memory_airs).length),
        (VmChipComplex.generation_order insertion_order num_memory_airs).get ⟨j, hj⟩ =
          GenEvent.range_checker →
        j = (VmChipComplex.generation_order insertion_order num_memory_airs).length - 1) := by
  refine ⟨?_, ?_, ?_, ?_⟩
  · rw [VmChipComplex.generation_order, List.filterMap_append, List.filterMap_append,
      List.filterMap_append, filterMap_inventory_chip_map_inventory,
      filterMap_inventory_chip_map_memory]
    simp [GenEvent.inventory_chip]
  · have hsplit : VmChipComplex.generation_order insertion_order num_memory_airs =
        ([GenEvent.program, GenEvent.connector] ++
            insertion_order.reverse.map GenEvent.inventory) ++
          ((List.range num_memory_airs).map GenEvent.memory ++ [GenEvent.range_checker]) := by
      simp [VmChipComplex.generation_order, List.append_assoc]
    rw [hsplit]
    intro i j hi hj hpi hqj
    have hiu := get_append_bound_of_forall_not _ _ GenEvent.is_inventory
      (by
        intro x hx
        cases x with
        | inventory c => exact absurd hx (by simp)
        | program => rfl
        | connector => rfl
        | memory n => rfl
        | range_checker => rfl)
      i hi hpi
    have hjl := get_append_lower_of_forall_not _ _ GenEvent.is_memory
      (by
        intro x hx
        cases x with
        | memory n => exact absurd hx (by simp)
        | program => rfl
        | connector => rfl
        | inventory c => rfl
        | range_checker => rfl)
      j hj hqj
    omega
  · have hsplit : VmChipComplex.generation_order insertion_order num_memory_airs =
        ([GenEvent.program, GenEvent.connector] ++
            (insertion_order.reverse.map GenEvent.inventory ++
              (List.range num_memory_airs).map GenEvent.memory)) ++
          [GenEvent.range_checker] := by
      simp [VmChipComplex.generation_order, List.append_assoc]
    rw [hsplit, List.getLast?_concat]
  · have hsplit : VmChipComplex.generation_order insertion_order num_memory_airs =
        ([GenEvent.program, GenEvent.connector] ++
            (insertion_order.reverse.map GenEvent.inventory ++
              (List.range num_memory_airs).map GenEvent.memory)) ++
          [GenEvent.range_checker] := by
      simp [VmChipComplex.generation_order, List.append_assoc]
    rw [hsplit]
    intro j hj hja
    have hjl := get_append_lower_of_forall_not _ _
      (fun e => e == GenEvent.range_checker)
      (by
        intro x hx
        cases x with
        | range_checker => exact absurd hx (by simp)
        | program => rfl
        | connector => rfl
        | inventory c => rfl
        | memory n => rfl)
      j hj (by rw [hja]; rfl)
    have hlen : (([GenEvent.program, GenEvent.connector] ++
          (insertion_order.reverse.map GenEvent.inventory ++
            (List.range num_memory_airs).map GenEvent.memory)) ++
          [GenEvent.range_checker]).length =
        ([GenEvent.program, GenEvent.connector] ++
          (insertion_order.reverse.map GenEvent.inventory ++
            (List.range num_memory_airs).map GenEvent.memory)).length + 1 := by
      rw [List.length_append]
      rfl
    omega

/-- Witness for the C4 theorem at a concrete inventory with one executor,
one periphery chip and one memory controller AIR: the chip finalized at
position 2 is an inventory chip, the one at position 4 a memory chip, and
the theorem places 2 before 4; the last event is the range checker. -/
theorem generation_order_spec_witness :
    ((VmChipComplex.generation_order [ChipId.executor 0, ChipId.periphery 0] 1).getLast? =
        some GenEvent.range_checker) ∧ (2 : Nat) < 4 :=
  ⟨(generation_order_spec [ChipId.executor 0, ChipId.periphery 0] 1).2.2.1,
    (generation_order_spec [ChipId.executor 0, ChipId.periphery 0] 1).2.1 2 4
      (by decide) (by decide) (by decide) (by decide)⟩

/-! ## Theorems: continuation segment loop -/

/-- The first segment returned by the loop keeps the claimed initial memory
the loop was started from, provided execution never rewrites the claimed
initial memory of a segment. -/
theorem execute_segments_aux_head (exec : ExecutionSegment → Option ExecutionSegment)
    (hframe : ∀ s s', exec s = some s' → s'.initial_memory = s.initial_memory) :
    ∀ (fuel : Nat) (im : Option Equipartition) (segs : List ExecutionSegment),
      VirtualMachine.execute_segments_aux exec fuel (ExecutionSegment.new im) = some segs →
      ∀ h0 : 0 < segs.length, (segs.get ⟨0, h0⟩).initial_memory = im
  | 0, im, segs, h => by
    simp [VirtualMachine.execute_segments_aux] at h
  | fuel + 1, im, segs, h => by
    intro h0
    simp only [VirtualMachine.execute_segments_aux] at h
    split at h
    · exact absurd h (by simp)
    · rename_i s hexec
      have hinit : s.initial_memory = im := hframe _ _ hexec
      split at h
      · injection h with h'
        subst h'
        simpa using hinit
      · split at h
        · exact absurd h (by simp)
        · rename_i fm hfm
          cases hrec : VirtualMachine.execute_segments_aux exec fuel
              (ExecutionSegment.new (some fm)) with
          | none => rw [hrec] at h; exact absurd h (by simp)
          | some rest =>
            rw [hrec] at h
            simp only [Option.map_some'] at h
            injection h with h'
            subst h'
            simpa using hinit

/-- Linking invariant of the segment loop, stated over the auxiliary
recursion: at every boundary of the returned segment list, re-executing the
predecessor (reconstructed from its claimed initial memory) yields a
non-terminated segment whose final memory is exactly the successor's claimed
initial memory. -/
theorem execute_segments_aux_links (exec : ExecutionSegment → Option ExecutionSegment)
    (hframe : ∀ s s', exec s = some s' → s'.initial_memory = s.initial_memory) :
    ∀ (fuel : Nat) (im : Option Equipartition) (segs : List ExecutionSegment),
      VirtualMachine.execute_segments_aux exec fuel (ExecutionSegment.new im) = some segs →
      ∀ (i : Nat) (hi : i + 1 < segs.length),
        (exec (ExecutionSegment.new
            (segs.get ⟨i, Nat.lt_of_succ_lt hi⟩).initial_memory)).map
          ExecutionSegment.final_memory = some (segs.get ⟨i + 1, hi⟩).initial_memory ∧
        (exec (ExecutionSegment.new
            (segs.get ⟨i, Nat.lt_of_succ_lt hi⟩).initial_memory)).map
          ExecutionSegment.did_terminate = some false
  | 0, im, segs, h => by
    simp [VirtualMachine.execute_segments_aux] at h
  | fuel + 1, im, segs, h => by
    intro i hi
    simp only [VirtualMachine.execute_segments_aux] at h
    split at h
    · exact absurd h (by simp)
    · rename_i s hexec
      have hinit : s.initial_memory = im := hframe _ _ hexec
      split at h
      · injection h with h'
        subst h'
        simp at hi
      · rename_i ht
        split at h
        · exact absurd h (by simp)
        · rename_i fm hfm
          cases hrec : VirtualMachine.execute_segments_aux exec fuel
              (ExecutionSegment.new (some fm)) with
          | none => rw [hrec] at h; exact absurd h (by simp)
          | some rest =>
            rw [hrec] at h
            simp only [Option.map_some'] at h
            injection h with h'
            subst h'
            cases i with
            | zero =>
              have hrest0 : 0 < rest.length := by
                simp at hi
                omega
              have hhead := execute_segments_aux_head exec hframe fuel (some fm) rest
                hrec hrest0
              constructor
              · show (exec (ExecutionSegment.new s.initial_memory)).map
                    ExecutionSegment.final_memory =
                  some (rest.get ⟨0, hrest0⟩).initial_memory
                rw [hinit, hexec, hhead]
                simp [hfm]
              · show (exec (ExecutionSegment.new s.initial_memory)).map
                    ExecutionSegment.did_terminate = some false
                rw [hinit, hexec]
                simp only [Bool.not_eq_true] at ht
                simp [ht]
            | succ i =>
              have hlen : i + 1 < rest.length := by
                simp at hi
                omega
              exact execute_segments_aux_links exec hframe fuel (some fm) rest hrec i hlen

/-- C3 (confirmed): in a continuation-enabled multi-segment execution,
every successor segment in the list produced by `execute_segments` is
constructed with its claimed initial memory exactly equal to the final
memory of the executed segment that precedes it (and that predecessor did
not terminate), at every segment boundary of the run. The hypothesis
`hframe` states that execution does not rewrite a segment's claimed initial
memory. -/
theorem execute_segments_links (exec : ExecutionSegment → Option ExecutionSegment)
    (hframe : ∀ s s', exec s = some s' → s'.initial_memory = s.initial_memory)
    (fuel : Nat) (im : Option Equipartition) (segs : List ExecutionSegment)
    (h : VirtualMachine.execute_segments exec fuel im = some segs)
    (i : Nat) (hi : i + 1 < segs.length) :
    (exec (ExecutionSegment.new
        (segs.get ⟨i, Nat.lt_of_succ_lt hi⟩).initial_memory)).map
      ExecutionSegment.final_memory = some (segs.get ⟨i + 1, hi⟩).initial_memory ∧
    (exec (ExecutionSegment.new
        (segs.get ⟨i, Nat.lt_of_succ_lt hi⟩).initial_memory)).map
      ExecutionSegment.did_terminate = some false :=
  execute_segments_aux_links exec hframe fuel im segs h i hi

/-- Witness for the C3 theorem at a concrete two-segment run of `c3ExecFn`:
the second segment's claimed initial memory is the first segment's final
memory. -/
theorem execute_segments_links_witness :
    VirtualMachine.execute_segments c3ExecFn 2 none =
        some [⟨none, none, false⟩, ⟨some [((0, 0), [7])], none, true⟩] ∧
      ((c3ExecFn (ExecutionSegment.new none)).map ExecutionSegment.final_memory =
          some (some [((0, 0), [7])]) ∧
        (c3ExecFn (ExecutionSegment.new none)).map ExecutionSegment.did_terminate =
          some false) := by
  refine ⟨by decide, ?_⟩
  have hframe : ∀ s s', c3ExecFn s = some s' → s'.initial_memory = s.initial_memory := by
    intro s s' hss
    unfold c3ExecFn at hss
    split at hss <;> (injection hss with h'; subst h'; rfl)
  exact execute_segments_links c3ExecFn hframe 2 none
    [⟨none, none, false⟩, ⟨some [((0, 0), [7])], none, true⟩] (by decide) 0 (by decide)

/-! ## Theorems: single-segment VM construction -/

/-- C10 (confirmed): `SingleSegmentVM::new` succeeds exactly when the
configured memory persistence type is volatile; for any other persistence
type the `assert_eq!` panics before any execution, so single-segment
execution only ever runs over volatile memory. -/
theorem single_segment_vm_new_iff (config : VmConfig) :
    (SingleSegmentVM.new config).isSome = true ↔
      config.memory_config.persistence_type = PersistenceType.volatile := by
  by_cases h : config.memory_config.persistence_type = PersistenceType.volatile
  · simp [SingleSegmentVM.new, h]
  · simp [SingleSegmentVM.new, h]

/-- Witness for the C10 theorem at the two concrete configurations. -/
theorem single_segment_vm_new_iff_witness :
    (SingleSegmentVM.new ⟨⟨PersistenceType.volatile⟩⟩).isSome = true ∧
      (SingleSegmentVM.new ⟨⟨PersistenceType.persistent⟩⟩).isSome = false :=
  ⟨(single_segment_vm_new_iff ⟨⟨PersistenceType.volatile⟩⟩).mpr rfl, by decide⟩
